import Mathlib

/-! Verification of dlisio's LIS curve-extraction module
(`src/python/dlisio/lis/curves.py`): a shallow embedding of the
representation registry, the per-channel layout translator `spec_dtype`,
the frame layout builder `dfsr_dtype`, the duplicate-name resolver
`mkunique`, and the orchestrator `curves`, together with theorems about
the properties the module is specified to have. -/

deriving instance DecidableEq for Except

/-- Representation codes of the LIS format. The nine codes that appear as
keys of the source's `nptype` table are the engine's supported set; `mask`
stands for the standard's masked/bitset code, which the engine leaves
unsupported. Modelled from the spec: the `core.lis_reprc` enumeration lives
in the external core, outside this repository's Python source. -/
inductive LisReprc where
  | f16 | f32 | f32low | f32fix | i8 | i16 | i32 | byte | string | mask
deriving DecidableEq, Repr

/-- Shallow embedding of the module-level `nptype` dictionary (curves.py
lines 10-20): representation code to numpy format type-string. A code absent
from the table (the mask code) yields `none` (a `KeyError` in the source). -/
def nptype : LisReprc → Option String
  | .f16    => some "f4"
  | .f32    => some "f4"
  | .f32low => some "f4"
  | .f32fix => some "f4"
  | .i8     => some "i1"
  | .i16    => some "i2"
  | .i32    => some "i4"
  | .byte   => some "u1"
  | .string => some "O"
  | .mask   => none

/-- Modelled from the spec: `core.lis_sizeof_type`, the Registry's
`byte_width_of(code)` sizing primitive, is part of the external core. The
widths follow the spec's descriptions of the codes (16-bit floats are 2
bytes, 32-bit floats and integers 4, etc.). The string code's length is not
derivable from the spec and the source never consults a width for strings;
the mask code lies outside the supported closed set (`UnsupportedCode`). -/
def lis_sizeof_type : LisReprc → Option Int
  | .f16    => some 2
  | .f32    => some 4
  | .f32low => some 4
  | .f32fix => some 4
  | .i8     => some 1
  | .i16    => some 2
  | .i32    => some 4
  | .byte   => some 1
  | .string => none
  | .mask   => none

/-- Result of `np.dtype (...)` for a single field: either a scalar dtype
(`np.dtype (t)`) or a fixed-size subarray dtype (`np.dtype ((t, n))`). -/
inductive Dtype where
  | scalar (t : String)
  | subarray (t : String) (n : Int)
deriving DecidableEq, Repr

/-- Element count of a field: a scalar holds one element, a subarray `n`. -/
def Dtype.count : Dtype → Int
  | .scalar _ => 1
  | .subarray _ n => n

/-- Modelled from the spec: per-element byte width of a numpy format
type-string (numpy is an external collaborator). The object dtype `O` is a
pointer, 8 bytes on a 64-bit platform. -/
def npItemsize : String → Int
  | "f4" => 4
  | "i1" => 1
  | "i2" => 2
  | "i4" => 4
  | "u1" => 1
  | "O"  => 8
  | _    => 0

/-- Byte width of one field of a structured dtype. -/
def Dtype.itemsize : Dtype → Int
  | .scalar t => npItemsize t
  | .subarray t n => npItemsize t * n

/-- One channel specification of a DFSR, as consumed by `spec_dtype`. -/
structure ChannelSpec where
  mnemonic : String
  reprc : LisReprc
  reserved_size : Int
  samples : Int
deriving DecidableEq, Repr

/-- One metadata entry block of a DFSR (`dfsr.entries`). -/
structure Entry where
  type : Int
  value : Int
deriving DecidableEq, Repr

/-- A Data Format Specification Record, as consumed by `curves`. -/
structure DFSR where
  entries : List Entry
  specs : List ChannelSpec
deriving DecidableEq, Repr

/-- Validation failures of the engine, following the spec's error taxonomy
(§7). The source raises `ValueError` for the arithmetic inconsistencies
(`invalidLayout`), `KeyError` or a core error for unsupported codes,
`ValueError` for duplicated mnemonics and `NotImplementedError` for the
depth-mode and fast-channel guards. -/
inductive LisError where
  | unsupportedDepthMode
  | fastChannelsPresent
  | invalidLayout
  | unsupportedCode
  | duplicateFieldName
deriving DecidableEq, Repr

/-- Shallow embedding of `spec_dtype` (curves.py lines 134-168): the Field
Layout Translator for one channel spec. The checks appear in source order:
`samples < 1`, `reserved_size` divisible by `samples`, the string shortcut,
the Registry width lookup, divisibility of the per-sample size by the
element width, and finally scalar versus subarray construction. -/
def spec_dtype (spec : ChannelSpec) : Except LisError Dtype :=
  if spec.samples < 1 then .error .invalidLayout
  else if spec.reserved_size % spec.samples ≠ 0 then .error .invalidLayout
  else if spec.reprc = .string then .ok (.scalar "O")
  else
    match lis_sizeof_type spec.reprc with
    | none => .error .unsupportedCode
    | some reprsize =>
      let sample_size := spec.reserved_size / spec.samples
      if sample_size % reprsize ≠ 0 then .error .invalidLayout
      else
        match nptype spec.reprc with
        | none => .error .unsupportedCode
        | some t =>
          let entries := sample_size / reprsize
          if entries = 1 then .ok (.scalar t) else .ok (.subarray t entries)

/-- Decimal digit characters, used to embed Python's `'({})'.format (n)`. -/
def digitChar : Nat → Char
  | 0 => '0' | 1 => '1' | 2 => '2' | 3 => '3' | 4 => '4'
  | 5 => '5' | 6 => '6' | 7 => '7' | 8 => '8' | _ => '9'

/-- Fuel-driven most-significant-first decimal digit list of `n`; any fuel
of at least `n` gives the full digit string. -/
def natStrAux : Nat → Nat → List Char
  | 0, _ => []
  | _ + 1, 0 => []
  | fuel + 1, n + 1 => natStrAux fuel ((n + 1) / 10) ++ [digitChar ((n + 1) % 10)]

/-- Decimal rendering of a natural number, exactly as Python formats a
nonnegative integer. -/
def natStr (n : Nat) : String :=
  if n = 0 then "0" else String.mk (natStrAux n n)

variable {α : Type}

/-- Shallow embedding of one pass of `mkunique`'s inner loop (curves.py
lines 218-226): every entry currently labelled `d` has `(c)`, `(c+1)`, ...
appended, in order. -/
def appendTail (d : String) : Nat → List (String × α) → List (String × α)
  | _, [] => []
  | c, (n, t) :: rest =>
    if n = d then (n ++ "(" ++ natStr c ++ ")", t) :: appendTail d (c + 1) rest
    else (n, t) :: appendTail d c rest

/-- First-occurrence-ordered deduplication, as Python's `Counter` iterates
its keys in insertion order. -/
def firstDedupAux (seen : List String) : List String → List String
  | [] => []
  | a :: l =>
    if a ∈ seen then firstDedupAux seen l else a :: firstDedupAux (a :: seen) l

/-- Distinct labels of `l` in first-occurrence order. -/
def firstDedup (l : List String) : List String := firstDedupAux [] l

/-- Labels occurring more than once, in first-occurrence order: the
`duplicates` list of `mkunique` (curves.py line 214). -/
def duplicatesOf (labels : List String) : List String :=
  (firstDedup labels).filter (fun x => decide (1 < labels.count x))

/-- Shallow embedding of `mkunique` (curves.py lines 189-228): one
`appendTail` pass per duplicated label, each pass running over the output of
the previous one. -/
def mkunique (types : List (String × α)) : List (String × α) :=
  (duplicatesOf (types.map Prod.fst)).foldl (fun ts d => appendTail d 0 ts) types

/-- Channel specs admitted by the Builder's filter (curves.py line 174):
positive reserved size and exactly one sample per frame. -/
def includedSpecs (dfsr : DFSR) : List ChannelSpec :=
  dfsr.specs.filter (fun ch => decide (0 < ch.reserved_size ∧ ch.samples = 1))

/-- The Builder's `(mnemonic, dtype)` list comprehension (curves.py lines
171-175), evaluated left to right with the first Translator failure
propagating. -/
def frameTypes : List ChannelSpec → Except LisError (List (String × Dtype))
  | [] => .ok []
  | ch :: rest =>
    match spec_dtype ch with
    | .error e => .error e
    | .ok d =>
      match frameTypes rest with
      | .error e => .error e
      | .ok ts => .ok ((ch.mnemonic, d) :: ts)

/-- Shallow embedding of `dfsr_dtype` (curves.py lines 170-187). The
structured-dtype constructor `np.dtype` is an external collaborator that
fails with a duplicate-field `ValueError` exactly when the field names are
not pairwise distinct (spec §4.3: `DuplicateFieldName`). In strict mode that
failure propagates; otherwise `mkunique` renames the fields and `np.dtype`
is attempted once more, this time outside any handler. -/
def dfsr_dtype (dfsr : DFSR) (strict : Bool) :
    Except LisError (List (String × Dtype)) :=
  match frameTypes (includedSpecs dfsr) with
  | .error e => .error e
  | .ok types =>
    if (types.map Prod.fst).Nodup then .ok types
    else if strict then .error .duplicateFieldName
    else if ((mkunique types).map Prod.fst).Nodup then .ok (mkunique types)
    else .error .duplicateFieldName

/-- Modelled from the spec: the itemsize of a packed numpy structured dtype
is the sum of its fields' itemsizes; in particular `np.dtype ([])` has
itemsize 0. -/
def structItemsize (types : List (String × Dtype)) : Int :=
  (types.map (fun p => p.2.itemsize)).sum

/-- Arguments the Orchestrator hands to the external decode engine
(`core.read_data_records`, curves.py lines 125-132): the structured dtype
and its itemsize. In this embedding a `DecodeInvocation` value exists
exactly when the decode engine is invoked. -/
structure DecodeInvocation where
  dtype : List (String × Dtype)
  itemsize : Int
deriving DecidableEq, Repr

/-- Shallow embedding of `curves` (curves.py lines 23-132): the
Orchestrator. The guards run in source order: depth recording mode first,
then fast channels, then the layout build. `core.dfs_formatstring` and the
decode engine itself are opaque external collaborators, so the embedding
returns the decode-engine invocation instead of the decoded records. -/
def curves (dfsr : DFSR) (strict : Bool) (skip_fast : Bool) :
    Except LisError DecodeInvocation :=
  if dfsr.entries.any (fun x => decide (x.type = 13 ∧ x.value = 1)) then
    .error .unsupportedDepthMode
  else if dfsr.specs.any (fun x => decide (1 < x.samples)) && !skip_fast then
    .error .fastChannelsPresent
  else
    match dfsr_dtype dfsr strict with
    | .error e => .error e
    | .ok dtype => .ok ⟨dtype, structItemsize dtype⟩

/-- Renaming pass parameterised by the set `D` of labels to rewrite: a name
in `D` receives its running occurrence index, where `prev` lists the
original labels already consumed. -/
def renamePass (D : List String) : List String → List (String × α) → List (String × α)
  | _, [] => []
  | prev, (n, t) :: rest =>
    (if n ∈ D then (n ++ "(" ++ natStr (prev.count n) ++ ")", t) else (n, t))
      :: renamePass D (prev ++ [n]) rest

/-- Modelled from the spec: the Duplicate Name Resolver of §4.4, rewriting
every occurrence of a name that occurs more than once by appending a
zero-based occurrence index in bracketed format, independently of other
duplicate groups, leaving unique names untouched and preserving order. -/
def specResolveAux (full : List String) : List String → List (String × α) → List (String × α)
  | _, [] => []
  | prev, (n, t) :: rest =>
    (if 1 < full.count n then (n ++ "(" ++ natStr (prev.count n) ++ ")", t) else (n, t))
      :: specResolveAux full (prev ++ [n]) rest

/-- The Resolver of spec §4.4 applied to a full list of labelled fields. -/
def specResolveNames (types : List (String × α)) : List (String × α) :=
  specResolveAux (types.map Prod.fst) [] types

/-! Helper lemmas about strings and the decimal tail. -/

theorem sepSplit {β : Type} {c : β} :
    ∀ {l1 l2 r1 r2 : List β}, c ∉ l1 → c ∉ l2 →
      l1 ++ c :: r1 = l2 ++ c :: r2 → l1 = l2 ∧ r1 = r2 := by
  intro l1
  induction l1 with
  | nil =>
    intro l2 r1 r2 h1 h2 h
    cases l2 with
    | nil => simpa using h
    | cons b l2 =>
      exfalso
      simp only [List.nil_append, List.cons_append, List.cons.injEq] at h
      apply h2
      rw [h.1]
      exact List.mem_cons_self b l2
  | cons a l1 ih =>
    intro l2 r1 r2 h1 h2 h
    cases l2 with
    | nil =>
      exfalso
      simp only [List.cons_append, List.nil_append, List.cons.injEq] at h
      apply h1
      rw [← h.1]
      exact List.mem_cons_self a l1
    | cons b l2 =>
      simp only [List.cons_append, List.cons.injEq] at h
      obtain ⟨hab, htail⟩ := h
      have h1a : c ∉ l1 := fun hm => h1 (List.mem_cons_of_mem _ hm)
      have h2a : c ∉ l2 := fun hm => h2 (List.mem_cons_of_mem _ hm)
      obtain ⟨he, hr⟩ := ih h1a h2a htail
      exact ⟨by rw [hab, he], hr⟩

theorem tail_data (a b : String) :
    (a ++ "(" ++ b ++ ")").data = a.data ++ '(' :: (b.data ++ [')']) := by
  simp [String.data_append]

theorem parenFree_ne_tail {a x y : String} (ha : '(' ∉ a.data) :
    a ≠ x ++ "(" ++ y ++ ")" := by
  intro h
  apply ha
  rw [h, tail_data]
  simp

theorem tail_inj {a b x y : String}
    (ha : '(' ∉ a.data) (hb : '(' ∉ b.data)
    (h : a ++ "(" ++ x ++ ")" = b ++ "(" ++ y ++ ")") : a = b ∧ x = y := by
  have hd : a.data ++ '(' :: (x.data ++ [')']) = b.data ++ '(' :: (y.data ++ [')']) := by
    rw [← tail_data, ← tail_data, h]
  obtain ⟨h1, h2⟩ := sepSplit ha hb hd
  exact ⟨String.ext h1, String.ext (List.append_cancel_right h2)⟩

theorem digitChar_inj : ∀ d < 10, ∀ e < 10, digitChar d = digitChar e → d = e := by
  decide

theorem map_digitChar_inj : ∀ {l1 l2 : List Nat},
    (∀ x ∈ l1, x < 10) → (∀ x ∈ l2, x < 10) →
    l1.map digitChar = l2.map digitChar → l1 = l2 := by
  intro l1
  induction l1 with
  | nil => intro l2 _ _ h; cases l2 <;> simp_all
  | cons a l1 ih =>
    intro l2 h1 h2 h
    cases l2 with
    | nil => simp at h
    | cons b l2 =>
      simp only [List.map_cons, List.cons.injEq] at h
      have hab : a = b :=
        digitChar_inj a (h1 a (List.mem_cons_self a l1)) b
          (h2 b (List.mem_cons_self b l2)) h.1
      have : l1 = l2 :=
        ih (fun x hx => h1 x (List.mem_cons_of_mem _ hx))
          (fun x hx => h2 x (List.mem_cons_of_mem _ hx)) h.2
      rw [hab, this]

theorem natStrAux_eq_digits : ∀ fuel n, n ≤ fuel →
    natStrAux fuel n = ((Nat.digits 10 n).map digitChar).reverse := by
  intro fuel
  induction fuel with
  | zero =>
    intro n hn
    interval_cases n
    simp [natStrAux]
  | succ fuel ih =>
    intro n hn
    match n with
    | 0 => simp [natStrAux]
    | m + 1 =>
      have hlt : (m + 1) / 10 < m + 1 := Nat.div_lt_self (Nat.succ_pos m) (by norm_num)
      rw [show natStrAux (fuel + 1) (m + 1)
            = natStrAux fuel ((m + 1) / 10) ++ [digitChar ((m + 1) % 10)] from rfl,
          Nat.digits_def' (by norm_num : (1 : ℕ) < 10) (Nat.succ_pos m),
          List.map_cons, List.reverse_cons, ih _ (by omega)]

theorem natStr_data_of_pos {n : Nat} (hn : n ≠ 0) :
    (natStr n).data = ((Nat.digits 10 n).map digitChar).reverse := by
  unfold natStr
  rw [if_neg hn]
  exact natStrAux_eq_digits n n le_rfl

theorem natStr_ne_zero_str {n : Nat} (hn : n ≠ 0) : natStr n ≠ "0" := by
  intro h
  have hd := natStr_data_of_pos hn
  rw [h] at hd
  have hrev : (Nat.digits 10 n).map digitChar = ['0'] := by
    have := congrArg List.reverse hd
    simpa using this.symm
  match hD : Nat.digits 10 n with
  | [] => rw [hD] at hrev; simp at hrev
  | [d] =>
    rw [hD] at hrev
    simp only [List.map_cons, List.map_nil, List.cons.injEq] at hrev
    have hdlt : d < 10 :=
      Nat.digits_lt_base (by norm_num) (hD ▸ List.mem_cons_self d [])
    have hd0 : d = 0 :=
      digitChar_inj d hdlt 0 (by norm_num) (by rw [hrev.1]; rfl)
    have hofd := Nat.ofDigits_digits 10 n
    rw [hD, hd0] at hofd
    simp [Nat.ofDigits] at hofd
    exact hn hofd.symm
  | d :: e :: rest => rw [hD] at hrev; simp at hrev

theorem natStr_inj {m n : Nat} (h : natStr m = natStr n) : m = n := by
  by_cases hm : m = 0
  · by_cases hn : n = 0
    · rw [hm, hn]
    · exfalso
      apply natStr_ne_zero_str hn
      rw [← h, hm]
      rfl
  · by_cases hn : n = 0
    · exfalso
      apply natStr_ne_zero_str hm
      rw [h, hn]
      rfl
    · have hd : ((Nat.digits 10 m).map digitChar).reverse
          = ((Nat.digits 10 n).map digitChar).reverse := by
        rw [← natStr_data_of_pos hm, ← natStr_data_of_pos hn, h]
      have hmap : (Nat.digits 10 m).map digitChar = (Nat.digits 10 n).map digitChar :=
        List.reverse_injective hd
      have hdig : Nat.digits 10 m = Nat.digits 10 n :=
        map_digitChar_inj (fun x hx => Nat.digits_lt_base (by norm_num) hx)
          (fun x hx => Nat.digits_lt_base (by norm_num) hx) hmap
      have := congrArg (Nat.ofDigits 10) hdig
      rwa [Nat.ofDigits_digits, Nat.ofDigits_digits] at this

/-! Helper lemmas about `firstDedup` and `duplicatesOf`. -/

theorem mem_firstDedupAux : ∀ {l seen : List String} {x : String},
    x ∈ firstDedupAux seen l ↔ x ∈ l ∧ x ∉ seen := by
  intro l
  induction l with
  | nil => intro seen x; simp [firstDedupAux]
  | cons a l ih =>
    intro seen x
    by_cases ha : a ∈ seen
    · rw [firstDedupAux, if_pos ha, ih]
      constructor
      · rintro ⟨h1, h2⟩
        exact ⟨List.mem_cons_of_mem _ h1, h2⟩
      · rintro ⟨h1, h2⟩
        rcases List.mem_cons.1 h1 with h | h
        · exact absurd (h ▸ ha) h2
        · exact ⟨h, h2⟩
    · rw [firstDedupAux, if_neg ha]
      constructor
      · intro h
        rcases List.mem_cons.1 h with h | h
        · exact ⟨h ▸ List.mem_cons_self a l, h ▸ ha⟩
        · obtain ⟨h1, h2⟩ := ih.1 h
          exact ⟨List.mem_cons_of_mem _ h1, fun hs => h2 (List.mem_cons_of_mem _ hs)⟩
      · rintro ⟨h1, h2⟩
        rcases List.mem_cons.1 h1 with h | h
        · exact h ▸ List.mem_cons_self _ _
        · by_cases hxa : x = a
          · exact hxa ▸ List.mem_cons_self _ _
          · refine List.mem_cons_of_mem _ (ih.2 ⟨h, fun hs => ?_⟩)
            rcases List.mem_cons.1 hs with h3 | h3
            · exact hxa h3
            · exact h2 h3

theorem nodup_firstDedupAux : ∀ {l seen : List String}, (firstDedupAux seen l).Nodup := by
  intro l
  induction l with
  | nil => intro seen; simp [firstDedupAux]
  | cons a l ih =>
    intro seen
    rw [firstDedupAux]
    split
    · exact ih
    · refine List.nodup_cons.2 ⟨fun hmem => ?_, ih⟩
      exact (mem_firstDedupAux.1 hmem).2 (List.mem_cons_self a seen)

theorem mem_duplicatesOf {l : List String} {x : String} :
    x ∈ duplicatesOf l ↔ x ∈ l ∧ 1 < l.count x := by
  unfold duplicatesOf firstDedup
  rw [List.mem_filter]
  constructor
  · rintro ⟨h1, h2⟩
    rw [decide_eq_true_eq] at h2
    exact ⟨(mem_firstDedupAux.1 h1).1, h2⟩
  · rintro ⟨h1, h2⟩
    exact ⟨mem_firstDedupAux.2 ⟨h1, by simp⟩, by simpa using h2⟩

theorem nodup_duplicatesOf {l : List String} : (duplicatesOf l).Nodup :=
  List.Nodup.filter _ nodup_firstDedupAux

/-! Helper lemmas relating `mkunique` to the spec's Resolver. -/

theorem renamePass_nil : ∀ (prev : List String) (ts : List (String × α)),
    renamePass [] prev ts = ts := by
  intro prev ts
  induction ts generalizing prev with
  | nil => rfl
  | cons p rest ih =>
    obtain ⟨n, t⟩ := p
    rw [renamePass, if_neg (List.not_mem_nil n), ih]

theorem appendTail_renamePass (d : String) (hd : '(' ∉ d.data)
    {D : List String} (hdD : d ∉ D) :
    ∀ (ts : List (String × α)) (prev : List String),
      appendTail d (prev.count d) (renamePass D prev ts) = renamePass (d :: D) prev ts := by
  intro ts
  induction ts with
  | nil => intro prev; rfl
  | cons p rest ih =>
    intro prev
    obtain ⟨n, t⟩ := p
    by_cases hn : n ∈ D
    · have hdn : d ≠ n := fun h => hdD (h ▸ hn)
      have hne : ¬ (n ++ "(" ++ natStr (prev.count n) ++ ")" = d) :=
        fun h => parenFree_ne_tail hd h.symm
      have hcount : (prev ++ [n]).count d = prev.count d := by
        simp [List.count_append, List.count_singleton', hdn]
      rw [renamePass, if_pos hn, appendTail, if_neg hne,
          renamePass, if_pos (List.mem_cons_of_mem _ hn), ← hcount, ih (prev ++ [n])]
    · by_cases hnd : n = d
      · subst hnd
      -- the head is an untouched occurrence of the processed label `n`
        have hcount : (prev ++ [n]).count n = prev.count n + 1 := by
          simp [List.count_append]
        rw [renamePass, if_neg hn, appendTail, if_pos rfl,
            renamePass, if_pos (List.mem_cons_self n D), ← hcount, ih (prev ++ [n])]
      · have hdn2 : d ≠ n := fun hh => hnd hh.symm
        have hcount : (prev ++ [n]).count d = prev.count d := by
          simp [List.count_append, List.count_singleton', hdn2]
        have hnotin : n ∉ d :: D := fun h => by
          rcases List.mem_cons.1 h with h | h
          · exact hnd h
          · exact hn h
        rw [renamePass, if_neg hn, appendTail, if_neg hnd,
            renamePass, if_neg hnotin, ← hcount, ih (prev ++ [n])]

theorem foldl_appendTail : ∀ (ds : List String) (D : List String) (ts : List (String × α)),
    (∀ x ∈ ds, '(' ∉ x.data) → ds.Nodup → (∀ x ∈ ds, x ∉ D) →
    ds.foldl (fun acc d => appendTail d 0 acc) (renamePass D [] ts)
      = renamePass (ds.reverse ++ D) [] ts := by
  intro ds
  induction ds with
  | nil => intro D ts _ _ _; simp
  | cons d ds ih =>
    intro D ts hds hnodup hdsD
    simp only [List.foldl_cons]
    have step := appendTail_renamePass d (hds d (List.mem_cons_self d ds))
      (hdsD d (List.mem_cons_self d ds)) ts []
    rw [show (([] : List String).count d) = 0 from rfl] at step
    rw [step, ih (d :: D) ts (fun x hx => hds x (List.mem_cons_of_mem _ hx))
        (List.nodup_cons.1 hnodup).2 ?oth]
    · simp
    case oth =>
      intro x hx
      intro hmem
      rcases List.mem_cons.1 hmem with h | h
      · exact (List.nodup_cons.1 hnodup).1 (h ▸ hx)
      · exact hdsD x (List.mem_cons_of_mem _ hx) h

theorem renamePass_congr (D1 D2 : List String) (h : ∀ x, x ∈ D1 ↔ x ∈ D2) :
    ∀ (ts : List (String × α)) (prev : List String),
      renamePass D1 prev ts = renamePass D2 prev ts := by
  intro ts
  induction ts with
  | nil => intro prev; rfl
  | cons p rest ih =>
    intro prev
    obtain ⟨n, t⟩ := p
    rw [renamePass, renamePass, ih (prev ++ [n])]
    by_cases hn : n ∈ D1
    · rw [if_pos hn, if_pos ((h n).1 hn)]
    · rw [if_neg hn, if_neg (fun hmem => hn ((h n).2 hmem))]

theorem renamePass_eq_specResolveAux {full : List String} :
    ∀ (ts : List (String × α)) (prev : List String),
      (∀ p ∈ ts, p.1 ∈ full) →
      renamePass (duplicatesOf full) prev ts = specResolveAux full prev ts := by
  intro ts
  induction ts with
  | nil => intro prev _; rfl
  | cons p rest ih =>
    intro prev hmem
    obtain ⟨n, t⟩ := p
    have hn : n ∈ full := hmem (n, t) (List.mem_cons_self _ _)
    rw [renamePass, specResolveAux,
        ih (prev ++ [n]) (fun q hq => hmem q (List.mem_cons_of_mem _ hq))]
    by_cases hdup : 1 < full.count n
    · rw [if_pos (mem_duplicatesOf.2 ⟨hn, hdup⟩), if_pos hdup]
    · rw [if_neg (fun hmem2 => hdup (mem_duplicatesOf.1 hmem2).2), if_neg hdup]

theorem mkunique_eq_specResolveNames {types : List (String × α)}
    (h : ∀ p ∈ types, '(' ∉ p.1.data) :
    mkunique types = specResolveNames types := by
  unfold mkunique specResolveNames
  have hlabels : ∀ x ∈ types.map Prod.fst, '(' ∉ x.data := by
    intro x hx
    obtain ⟨p, hp, rfl⟩ := List.mem_map.1 hx
    exact h p hp
  have h1 := foldl_appendTail (duplicatesOf (types.map Prod.fst)) [] types
    (fun x hx => hlabels x (mem_duplicatesOf.1 hx).1) nodup_duplicatesOf
    (by simp)
  rw [renamePass_nil] at h1
  rw [h1,
      renamePass_congr ((duplicatesOf (types.map Prod.fst)).reverse ++ [])
        (duplicatesOf (types.map Prod.fst)) (by intro x; simp) types [],
      renamePass_eq_specResolveAux types [] (fun p hp => List.mem_map_of_mem Prod.fst hp)]

/-! Helper lemmas on the spec Resolver: membership shape and uniqueness. -/

theorem specResolveAux_label_mem {full : List String} :
    ∀ (ts : List (String × α)) (prev : List String) (x : String),
      x ∈ (specResolveAux full prev ts).map Prod.fst →
      ∃ n, n ∈ ts.map Prod.fst ∧
        ((x = n ∧ ¬ 1 < full.count n) ∨
          (∃ c, prev.count n ≤ c ∧ 1 < full.count n ∧ x = n ++ "(" ++ natStr c ++ ")")) := by
  intro ts
  induction ts with
  | nil => intro prev x h; simp [specResolveAux] at h
  | cons p rest ih =>
    intro prev x h
    obtain ⟨n, t⟩ := p
    rw [specResolveAux, List.map_cons] at h
    rcases List.mem_cons.1 h with hx | hx
    · by_cases hdup : 1 < full.count n
      · rw [if_pos hdup] at hx
        exact ⟨n, List.mem_cons_self _ _, Or.inr ⟨prev.count n, le_rfl, hdup, hx⟩⟩
      · rw [if_neg hdup] at hx
        exact ⟨n, List.mem_cons_self _ _, Or.inl ⟨hx, hdup⟩⟩
    · obtain ⟨m, hm, hcase⟩ := ih (prev ++ [n]) x hx
      refine ⟨m, List.mem_cons_of_mem _ hm, ?_⟩
      rcases hcase with h1 | ⟨c, hc1, hc2, hc3⟩
      · exact Or.inl h1
      · refine Or.inr ⟨c, le_trans ?_ hc1, hc2, hc3⟩
        rw [List.count_append]
        exact Nat.le_add_right _ _

theorem specResolveAux_nodup {full : List String} (hfree : ∀ x ∈ full, '(' ∉ x.data) :
    ∀ (ts : List (String × α)) (prev : List String),
      full = prev ++ ts.map Prod.fst →
      ((specResolveAux full prev ts).map Prod.fst).Nodup := by
  intro ts
  induction ts with
  | nil => intro prev _; simp [specResolveAux]
  | cons p rest ih =>
    intro prev hfull
    obtain ⟨n, t⟩ := p
    have hfull2 : full = (prev ++ [n]) ++ rest.map Prod.fst := by
      rw [hfull]; simp
    have hnfull : n ∈ full := by
      rw [hfull]; simp
    have hnfree : '(' ∉ n.data := hfree n hnfull
    have hmemfree : ∀ m, m ∈ rest.map Prod.fst → '(' ∉ m.data := by
      intro m hm
      apply hfree
      rw [hfull2]
      exact List.mem_append_right _ hm
    rw [specResolveAux, List.map_cons]
    by_cases hdup : 1 < full.count n
    · rw [if_pos hdup]
      refine List.nodup_cons.2 ⟨?_, ih (prev ++ [n]) hfull2⟩
      intro hmem
      obtain ⟨m, hm, hcase⟩ := specResolveAux_label_mem rest (prev ++ [n]) _ hmem
      have hmfree : '(' ∉ m.data := hmemfree m hm
      rcases hcase with ⟨heq, _⟩ | ⟨c, hc1, _, heq⟩
      · exact parenFree_ne_tail hmfree heq.symm
      · obtain ⟨hnm, hcs⟩ := tail_inj hnfree hmfree heq
        have hceq : prev.count n = c := natStr_inj hcs
        rw [← hnm, ← hceq] at hc1
        have : (prev ++ [n]).count n = prev.count n + 1 := by
          simp [List.count_append]
        omega
    · rw [if_neg hdup]
      refine List.nodup_cons.2 ⟨?_, ih (prev ++ [n]) hfull2⟩
      intro hmem
      obtain ⟨m, hm, hcase⟩ := specResolveAux_label_mem rest (prev ++ [n]) _ hmem
      have hmfree : '(' ∉ m.data := hmemfree m hm
      rcases hcase with ⟨heq, _⟩ | ⟨c, _, _, heq⟩
      · apply hdup
        rw [hfull2, List.count_append]
        have hnm : n = m := heq
        have hmem2 : n ∈ rest.map Prod.fst := by rw [hnm]; exact hm
        have h1 : 0 < (rest.map Prod.fst).count n := List.count_pos_iff.2 hmem2
        have h2 : 0 < ((prev ++ [n]).count n) := by
          apply List.count_pos_iff.2
          simp
        omega
      · exact parenFree_ne_tail hnfree heq

theorem specResolveNames_nodup {types : List (String × α)}
    (h : ∀ p ∈ types, '(' ∉ p.1.data) :
    ((specResolveNames types).map Prod.fst).Nodup := by
  unfold specResolveNames
  refine specResolveAux_nodup ?_ types [] (by simp)
  intro x hx
  obtain ⟨p, hp, rfl⟩ := List.mem_map.1 hx
  exact h p hp

theorem mkunique_nodup_of_parenFree {types : List (String × α)}
    (h : ∀ p ∈ types, '(' ∉ p.1.data) :
    ((mkunique types).map Prod.fst).Nodup := by
  rw [mkunique_eq_specResolveNames h]
  exact specResolveNames_nodup h

/-! Helper lemmas: `mkunique` preserves length, dtypes and unique labels. -/

theorem appendTail_forall₂ {D : List String} {d : String} (hdD : d ∈ D)
    {ts cur : List (String × α)} (c : Nat)
    (h : List.Forall₂ (fun a b => a.2 = b.2 ∧ (a.1 ∉ D → b = a)) ts cur) :
    List.Forall₂ (fun a b => a.2 = b.2 ∧ (a.1 ∉ D → b = a)) ts (appendTail d c cur) := by
  induction h generalizing c with
  | nil => exact List.Forall₂.nil
  | cons hab htail ih =>
    rename_i a b ts2 cur2
    obtain ⟨n, t⟩ := b
    by_cases hn : n = d
    · subst hn
      rw [appendTail, if_pos rfl]
      refine List.Forall₂.cons ⟨hab.1, fun hnotin => ?_⟩ (ih (c + 1))
      exfalso
      have hba := hab.2 hnotin
      rw [← hba] at hnotin
      exact hnotin hdD
    · rw [appendTail, if_neg hn]
      exact List.Forall₂.cons hab (ih c)

theorem mkunique_forall₂ (types : List (String × α)) :
    List.Forall₂ (fun a b => a.2 = b.2 ∧
        (a.1 ∉ duplicatesOf (types.map Prod.fst) → b = a)) types (mkunique types) := by
  unfold mkunique
  have main : ∀ (ds : List String), (∀ x ∈ ds, x ∈ duplicatesOf (types.map Prod.fst)) →
      ∀ cur, List.Forall₂ (fun a b => a.2 = b.2 ∧
          (a.1 ∉ duplicatesOf (types.map Prod.fst) → b = a)) types cur →
      List.Forall₂ (fun a b => a.2 = b.2 ∧
          (a.1 ∉ duplicatesOf (types.map Prod.fst) → b = a)) types
        (ds.foldl (fun acc d => appendTail d 0 acc) cur) := by
    intro ds
    induction ds with
    | nil => intro _ cur h; exact h
    | cons d ds ih =>
      intro hmem cur h
      simp only [List.foldl_cons]
      exact ih (fun x hx => hmem x (List.mem_cons_of_mem _ hx)) _
        (appendTail_forall₂ (hmem d (List.mem_cons_self d ds)) 0 h)
  exact main _ (fun x hx => hx) types (List.forall₂_same.2 (fun x _ => ⟨rfl, fun _ => rfl⟩))

theorem forall₂_trans {β γ δ : Type} {R : β → γ → Prop} {S : γ → δ → Prop}
    {T : β → δ → Prop} (hcomp : ∀ a b c, R a b → S b c → T a c) :
    ∀ {l1 : List β} {l2 : List γ} {l3 : List δ},
      List.Forall₂ R l1 l2 → List.Forall₂ S l2 l3 → List.Forall₂ T l1 l3 := by
  intro l1 l2 l3 h1
  induction h1 generalizing l3 with
  | nil =>
    intro h2
    cases h2
    exact List.Forall₂.nil
  | cons hab _ ih =>
    intro h2
    cases h2 with
    | cons hbc htail2 => exact List.Forall₂.cons (hcomp _ _ _ hab hbc) (ih htail2)

theorem map_snd_of_forall₂ {β γ : Type} {P : (β × α) → (γ × α) → Prop}
    (hP : ∀ a b, P a b → a.2 = b.2) :
    ∀ {l1 : List (β × α)} {l2 : List (γ × α)}, List.Forall₂ P l1 l2 →
      l2.map Prod.snd = l1.map Prod.snd := by
  intro l1 l2 h
  induction h with
  | nil => rfl
  | cons hab _ ih => simp only [List.map_cons, ih, (hP _ _ hab).symm]

theorem mkunique_map_snd (types : List (String × α)) :
    (mkunique types).map Prod.snd = types.map Prod.snd :=
  map_snd_of_forall₂ (fun _ _ h => h.1) (mkunique_forall₂ types)

theorem mkunique_length (types : List (String × α)) :
    (mkunique types).length = types.length :=
  (mkunique_forall₂ types).length_eq.symm

theorem not_mem_duplicatesOf_of_count_eq_one {labels : List String} {x : String}
    (h : labels.count x = 1) : x ∉ duplicatesOf labels := fun hmem => by
  have := (mem_duplicatesOf.1 hmem).2
  omega

/-! Helper lemmas on the Builder (`frameTypes`, `dfsr_dtype`) and the
Orchestrator (`curves`). -/

theorem isOk_exists {ε β : Type} {e : Except ε β} (h : e.isOk = true) :
    ∃ a, e = .ok a := by
  cases e with
  | error err => simp [Except.isOk, Except.toBool] at h
  | ok a => exact ⟨a, rfl⟩

theorem frameTypes_ok_forall₂ : ∀ {l : List ChannelSpec} {ts : List (String × Dtype)},
    frameTypes l = .ok ts →
    List.Forall₂ (fun ch p => p.1 = ch.mnemonic ∧ spec_dtype ch = .ok p.2) l ts := by
  intro l
  induction l with
  | nil =>
    intro ts h
    rw [frameTypes] at h
    injection h with h
    rw [← h]
    exact List.Forall₂.nil
  | cons ch rest ih =>
    intro ts h
    rw [frameTypes] at h
    cases hd : spec_dtype ch with
    | error e => rw [hd] at h; exact Except.noConfusion h
    | ok d =>
      rw [hd] at h
      cases hts : frameTypes rest with
      | error e => rw [hts] at h; exact Except.noConfusion h
      | ok ts0 =>
        rw [hts] at h
        injection h with h
        rw [← h]
        exact List.Forall₂.cons ⟨rfl, hd⟩ (ih hts)

theorem frameTypes_exists : ∀ {l : List ChannelSpec},
    (∀ ch ∈ l, (spec_dtype ch).isOk = true) →
    ∃ ts, frameTypes l = .ok ts := by
  intro l
  induction l with
  | nil => intro _; exact ⟨[], rfl⟩
  | cons ch rest ih =>
    intro h
    obtain ⟨d, hd⟩ := isOk_exists (h ch (List.mem_cons_self ch rest))
    obtain ⟨ts, hts⟩ := ih (fun x hx => h x (List.mem_cons_of_mem _ hx))
    exact ⟨(ch.mnemonic, d) :: ts, by rw [frameTypes, hd, hts]⟩

theorem map_fst_of_forall₂ {l : List ChannelSpec} {ts : List (String × Dtype)}
    (h : List.Forall₂ (fun ch p => p.1 = ch.mnemonic ∧ spec_dtype ch = .ok p.2) l ts) :
    ts.map Prod.fst = l.map ChannelSpec.mnemonic := by
  induction h with
  | nil => rfl
  | cons hab _ ih => simp only [List.map_cons, ih, hab.1]

theorem dfsr_dtype_of_frameTypes {dfsr : DFSR} (strict : Bool)
    {ts0 : List (String × Dtype)}
    (hft : frameTypes (includedSpecs dfsr) = .ok ts0) :
    dfsr_dtype dfsr strict =
      if (ts0.map Prod.fst).Nodup then .ok ts0
      else if strict then .error .duplicateFieldName
      else if ((mkunique ts0).map Prod.fst).Nodup then .ok (mkunique ts0)
      else .error .duplicateFieldName := by
  unfold dfsr_dtype
  rw [hft]

theorem dfsr_dtype_of_frameTypes_err {dfsr : DFSR} (strict : Bool) {e : LisError}
    (hft : frameTypes (includedSpecs dfsr) = .error e) :
    dfsr_dtype dfsr strict = .error e := by
  unfold dfsr_dtype
  rw [hft]

theorem dfsr_dtype_ok_elim {dfsr : DFSR} {strict : Bool} {ts : List (String × Dtype)}
    (h : dfsr_dtype dfsr strict = .ok ts) :
    ∃ ts0, frameTypes (includedSpecs dfsr) = .ok ts0 ∧
      (ts.map Prod.fst).Nodup ∧
      (ts = ts0 ∨ (strict = false ∧ ts = mkunique ts0)) := by
  cases hft : frameTypes (includedSpecs dfsr) with
  | error e =>
    rw [dfsr_dtype_of_frameTypes_err strict hft] at h
    exact Except.noConfusion h
  | ok ts0 =>
    rw [dfsr_dtype_of_frameTypes strict hft] at h
    refine ⟨ts0, rfl, ?_⟩
    by_cases h1 : (ts0.map Prod.fst).Nodup
    · rw [if_pos h1] at h
      injection h with h
      rw [← h]
      exact ⟨h1, Or.inl rfl⟩
    · rw [if_neg h1] at h
      by_cases hst : strict = true
      · rw [if_pos hst] at h
        exact Except.noConfusion h
      · rw [if_neg hst] at h
        by_cases h2 : ((mkunique ts0).map Prod.fst).Nodup
        · rw [if_pos h2] at h
          injection h with h
          rw [← h]
          exact ⟨h2, Or.inr ⟨Bool.not_eq_true strict ▸ hst, rfl⟩⟩
        · rw [if_neg h2] at h
          exact Except.noConfusion h

theorem dfsr_dtype_ok_nodup {dfsr : DFSR} {strict : Bool} {ts : List (String × Dtype)}
    (h : dfsr_dtype dfsr strict = .ok ts) : (ts.map Prod.fst).Nodup :=
  (dfsr_dtype_ok_elim h).choose_spec.2.1

theorem dfsr_dtype_ok_forall₂ {dfsr : DFSR} {strict : Bool} {ts : List (String × Dtype)}
    (h : dfsr_dtype dfsr strict = .ok ts) :
    List.Forall₂ (fun ch p => spec_dtype ch = .ok p.2 ∧ (strict = true → p.1 = ch.mnemonic))
      (includedSpecs dfsr) ts := by
  obtain ⟨ts0, hft, _, hcase⟩ := dfsr_dtype_ok_elim h
  have base := frameTypes_ok_forall₂ hft
  rcases hcase with rfl | ⟨hst, rfl⟩
  · exact base.imp (fun _ _ hab => ⟨hab.2, fun _ => hab.1⟩)
  · refine forall₂_trans ?_ base (mkunique_forall₂ ts0)
    intro ch p q hrp hsq
    refine ⟨?_, fun hstrue => absurd (hst ▸ hstrue) (by simp)⟩
    rw [← hsq.1]
    exact hrp.2

theorem curves_of_guards {dfsr : DFSR} {strict skip_fast : Bool}
    (h1 : ¬ dfsr.entries.any (fun x => decide (x.type = 13 ∧ x.value = 1)) = true)
    (h2 : ¬ (dfsr.specs.any (fun x => decide (1 < x.samples)) && !skip_fast) = true) :
    curves dfsr strict skip_fast =
      match dfsr_dtype dfsr strict with
      | .error e => .error e
      | .ok dtype => .ok ⟨dtype, structItemsize dtype⟩ := by
  unfold curves
  rw [if_neg h1, if_neg h2]

theorem curves_ok_elim {dfsr : DFSR} {strict skip_fast : Bool} {inv : DecodeInvocation}
    (h : curves dfsr strict skip_fast = .ok inv) :
    (∀ e ∈ dfsr.entries, ¬ (e.type = 13 ∧ e.value = 1)) ∧
    (skip_fast = false → ∀ s ∈ dfsr.specs, ¬ 1 < s.samples) ∧
    dfsr_dtype dfsr strict = .ok inv.dtype ∧
    inv.itemsize = structItemsize inv.dtype := by
  unfold curves at h
  by_cases h1 : dfsr.entries.any (fun x => decide (x.type = 13 ∧ x.value = 1)) = true
  · rw [if_pos h1] at h
    exact Except.noConfusion h
  · rw [if_neg h1] at h
    by_cases h2 : (dfsr.specs.any (fun x => decide (1 < x.samples)) && !skip_fast) = true
    · rw [if_pos h2] at h
      exact Except.noConfusion h
    · rw [if_neg h2] at h
      cases hdt : dfsr_dtype dfsr strict with
      | error e => rw [hdt] at h; exact Except.noConfusion h
      | ok dtype =>
        rw [hdt] at h
        injection h with h
        rw [← h]
        refine ⟨?_, ?_, rfl, rfl⟩
        · intro e he hcond
          apply h1
          rw [List.any_eq_true]
          exact ⟨e, he, by simpa using hcond⟩
        · intro hsf s hs hlt
          apply h2
          rw [hsf]
          simp only [Bool.not_false, Bool.and_true]
          rw [List.any_eq_true]
          exact ⟨s, hs, by simpa using hlt⟩

theorem lis_sizeof_type_facts {c : LisReprc} {w : Int} (h : lis_sizeof_type c = some w) :
    0 < w ∧ c ≠ .string ∧ ∃ t, nptype c = some t := by
  cases c <;> simp only [lis_sizeof_type] at h <;>
    first
      | exact Option.noConfusion h
      | (injection h with h; subst h; exact ⟨by norm_num, by simp, _, rfl⟩)

theorem spec_dtype_eval_nonstring (spec : ChannelSpec) {w : Int} {t : String}
    (hs : spec.samples = 1) (hw : lis_sizeof_type spec.reprc = some w)
    (hnstr : spec.reprc ≠ .string) (ht : nptype spec.reprc = some t)
    (hdvd : spec.reserved_size % w = 0) :
    spec_dtype spec =
      (if spec.reserved_size / w = 1 then .ok (.scalar t)
       else .ok (.subarray t (spec.reserved_size / w))) := by
  unfold spec_dtype
  rw [hs, hw, ht, if_neg (by norm_num), if_neg (by simp), if_neg hnstr]
  simp only [Int.ediv_one]
  rw [if_neg (by simp [hdvd])]

/-! Claim theorems. -/

/-- C2: for every `ChannelSpec` with `samples == 1`, `reserved_size > 0` and
a non-string representation code of element byte width `w` such that
`reserved_size` is an exact multiple of `w`, the Translator succeeds with
`element_count = reserved_size / w`, and the element count equals 1 exactly
when `reserved_size = w` (scalar field iff `reserved_size == w`, fixed-size
array field otherwise). -/
theorem spec_dtype_element_count (spec : ChannelSpec) (w : Int)
    (hs : spec.samples = 1) ( _hr : 0 < spec.reserved_size)
    (hnstr : spec.reprc ≠ .string)
    (hw : lis_sizeof_type spec.reprc = some w)
    (hdvd : spec.reserved_size % w = 0) :
    ∃ d, spec_dtype spec = .ok d ∧ d.count = spec.reserved_size / w ∧
      (d.count = 1 ↔ spec.reserved_size = w) := by
  obtain ⟨hwpos, _, t, ht⟩ := lis_sizeof_type_facts hw
  rw [spec_dtype_eval_nonstring spec hs hw hnstr ht hdvd]
  by_cases he : spec.reserved_size / w = 1
  · rw [if_pos he]
    refine ⟨.scalar t, rfl, by rw [Dtype.count, he], ?_⟩
    have hre := Int.ediv_add_emod spec.reserved_size w
    rw [hdvd, he] at hre
    constructor
    · intro _
      omega
    · intro _
      rfl
  · rw [if_neg he]
    refine ⟨.subarray t (spec.reserved_size / w), rfl, rfl, ?_⟩
    constructor
    · intro h1
      exact absurd h1 he
    · intro h2
      exfalso
      apply he
      rw [h2]
      exact Int.ediv_self (ne_of_gt hwpos)

theorem spec_dtype_element_count_witness :
    ∃ d, spec_dtype ⟨"A", .f32, 8, 1⟩ = .ok d ∧
      d.count = (8 : Int) / 4 ∧ (d.count = 1 ↔ (8 : Int) = 4) := by
  exact spec_dtype_element_count ⟨"A", .f32, 8, 1⟩ 4 rfl (by decide) (by decide) rfl
    (by decide)

/-- C3: for every `ChannelSpec` with `samples == 1`, `reserved_size > 0` and
a non-string representation code of element byte width `w` such that
`reserved_size % w ≠ 0`, the Translator fails with `InvalidLayout` (the
source's `ValueError` on the reserved-size/element-width divisibility
check) rather than returning any layout. -/
theorem spec_dtype_invalid_layout (spec : ChannelSpec) (w : Int)
    (hs : spec.samples = 1) ( _hr : 0 < spec.reserved_size)
    (hnstr : spec.reprc ≠ .string)
    (hw : lis_sizeof_type spec.reprc = some w)
    (hndvd : spec.reserved_size % w ≠ 0) :
    spec_dtype spec = .error .invalidLayout := by
  unfold spec_dtype
  rw [hs, hw, if_neg (by norm_num), if_neg (by simp), if_neg hnstr]
  simp only [Int.ediv_one]
  rw [if_pos hndvd]

theorem spec_dtype_invalid_layout_witness :
    spec_dtype ⟨"A", .i16, 3, 1⟩ = .error .invalidLayout :=
  spec_dtype_invalid_layout ⟨"A", .i16, 3, 1⟩ 2 rfl (by decide) (by decide) rfl
    (by decide)

/-- C4: for every `ChannelSpec` with `samples == 1`, `reserved_size > 0` and
the string representation code, the Translator succeeds with a scalar
object field (`element_count == 1`) for every positive reserved size,
without any element-width divisibility check. -/
theorem spec_dtype_string_scalar (spec : ChannelSpec)
    (hs : spec.samples = 1) ( _hr : 0 < spec.reserved_size)
    (hstr : spec.reprc = .string) :
    spec_dtype spec = .ok (.scalar "O") ∧ (Dtype.scalar "O").count = 1 := by
  constructor
  · unfold spec_dtype
    rw [hs, if_neg (by norm_num), if_neg (by simp), if_pos hstr]
  · rfl

theorem spec_dtype_string_scalar_witness :
    spec_dtype ⟨"A", .string, 7, 1⟩ = .ok (.scalar "O") ∧
      (Dtype.scalar "O").count = 1 :=
  spec_dtype_string_scalar ⟨"A", .string, 7, 1⟩ rfl (by decide) rfl

/-- C7: the mask code lies outside the supported closed set: both Registry
lookups fail (`none`, an `UnsupportedCode` failure), and consequently the
Translator never produces a field for a mask-coded `ChannelSpec` — every
such spec translates to an error. -/
theorem mask_code_unsupported :
    nptype .mask = none ∧ lis_sizeof_type .mask = none ∧
    ∀ spec : ChannelSpec, spec.reprc = .mask → ∃ e, spec_dtype spec = .error e := by
  refine ⟨rfl, rfl, ?_⟩
  intro spec hmask
  unfold spec_dtype
  rw [hmask]
  by_cases h1 : spec.samples < 1
  · rw [if_pos h1]
    exact ⟨_, rfl⟩
  · rw [if_neg h1]
    by_cases h2 : spec.reserved_size % spec.samples ≠ 0
    · rw [if_pos h2]
      exact ⟨_, rfl⟩
    · rw [if_neg h2, if_neg (by simp : ¬ (LisReprc.mask = LisReprc.string))]
      exact ⟨.unsupportedCode, rfl⟩

theorem mask_code_unsupported_witness :
    ∃ e, spec_dtype ⟨"A", .mask, 4, 1⟩ = .error e :=
  mask_code_unsupported.2.2 ⟨"A", .mask, 4, 1⟩ rfl

/-- C9: the Resolver never changes the shape of the field list: the output
has the same length as the input, the dtype at every position is the
input's dtype at that position, and an entry whose label occurs exactly
once is returned entirely unchanged — only names of duplicated labels are
ever modified. -/
theorem mkunique_preserves_shape (types : List (String × α)) :
    (mkunique types).length = types.length ∧
    (mkunique types).map Prod.snd = types.map Prod.snd ∧
    ∀ a b, (a, b) ∈ types.zip (mkunique types) →
      a.2 = b.2 ∧ ((types.map Prod.fst).count a.1 = 1 → b = a) := by
  refine ⟨mkunique_length types, mkunique_map_snd types, ?_⟩
  intro a b hab
  have h := (List.forall₂_iff_zip.1 (mkunique_forall₂ types)).2 hab
  exact ⟨h.1, fun hc => h.2 (not_mem_duplicatesOf_of_count_eq_one hc)⟩

theorem mkunique_preserves_shape_witness :
    (mkunique [("TIME", 0), ("TIME", 1), ("DEPT", 2)]).length
        = ([("TIME", 0), ("TIME", 1), ("DEPT", 2)] : List (String × Nat)).length ∧
    (("DEPT", 2) : String × Nat) = ("DEPT", 2) := by
  have h := mkunique_preserves_shape [("TIME", 0), ("TIME", 1), ("DEPT", 2)]
  exact ⟨h.1, (h.2.2 ("DEPT", 2) ("DEPT", 2) (by decide)).2 (by decide)⟩

/-- C5 counterexample: on `[("A",0),("A",1),("A(0)",2),("A(0)",3)]` the
source rewrites the first occurrence of the duplicated label "A" to
"A(0)(0)", not to "A(0)" (which is "A" with a zero-based bracketed index
appended): the passes over distinct duplicate groups interfere, so the
rewriting is not independent per group as the claim states. -/
theorem mkunique_counterexample :
    mkunique [("A", 0), ("A", 1), ("A(0)", 2), ("A(0)", 3)]
      = [("A(0)(0)", 0), ("A(1)", 1), ("A(0)(1)", 2), ("A(0)(2)", 3)] ∧
    ("A(0)(0)" : String) ≠ "A" ++ "(" ++ natStr 0 ++ ")" :=
  ⟨by decide, by decide⟩

/-- C5 (amended): provided no input name contains the parenthesis
character, the Resolver behaves as claimed: it equals the spec's Resolver,
which appends the zero-based occurrence index, in bracketed format and in
original order, to every occurrence of a name occurring more than once,
leaves unique names unchanged, and preserves order; determinism holds since
both are pure functions of the input. -/
theorem mkunique_matches_resolver (types : List (String × α))
    (h : ∀ p ∈ types, '(' ∉ p.1.data) :
    mkunique types = specResolveNames types :=
  mkunique_eq_specResolveNames h

theorem mkunique_matches_resolver_witness :
    mkunique [("TIME", 0), ("TIME", 1)]
      = specResolveNames [("TIME", 0), ("TIME", 1)] :=
  mkunique_matches_resolver _ (by decide)

/-- C1 counterexample: with mnemonics "A","A" where the second channel's
reserved size 3 is not a multiple of its element width 2, strict mode fails
with the layout error, not `DuplicateFieldName`; and with mnemonics
"A","A","A(0)" lenient mode does not succeed: the renamed labels collide
with the third mnemonic and the rebuilt dtype raises the duplicate-name
error. -/
theorem dfsr_dtype_duplicate_counterexample :
    dfsr_dtype ⟨[], [⟨"A", .i16, 2, 1⟩, ⟨"A", .i16, 3, 1⟩]⟩ true
      = .error .invalidLayout ∧
    LisError.invalidLayout ≠ LisError.duplicateFieldName ∧
    dfsr_dtype ⟨[], [⟨"A", .i16, 2, 1⟩, ⟨"A", .i16, 2, 1⟩, ⟨"A(0)", .i16, 2, 1⟩]⟩ false
      = .error .duplicateFieldName :=
  ⟨by decide, by decide, by decide⟩

/-- C1 (amended): for every DFSR whose included channels carry a duplicated
mnemonic, provided every included channel translates successfully and no
included mnemonic contains the parenthesis character: the Builder with
`strict=true` fails with `DuplicateFieldName`, and with `strict=false` it
succeeds with a layout whose field names are pairwise unique. -/
theorem dfsr_dtype_duplicate_modes (dfsr : DFSR)
    (hdup : ¬ ((includedSpecs dfsr).map ChannelSpec.mnemonic).Nodup)
    (hok : ∀ ch ∈ includedSpecs dfsr, (spec_dtype ch).isOk = true)
    (hpar : ∀ ch ∈ includedSpecs dfsr, '(' ∉ ch.mnemonic.data) :
    dfsr_dtype dfsr true = .error .duplicateFieldName ∧
    ∃ layout, dfsr_dtype dfsr false = .ok layout ∧ (layout.map Prod.fst).Nodup := by
  obtain ⟨ts0, hft⟩ := frameTypes_exists hok
  have hfst : ts0.map Prod.fst = (includedSpecs dfsr).map ChannelSpec.mnemonic :=
    map_fst_of_forall₂ (frameTypes_ok_forall₂ hft)
  have hd0 : ¬ (ts0.map Prod.fst).Nodup := by rw [hfst]; exact hdup
  have hpar0 : ∀ p ∈ ts0, '(' ∉ p.1.data := by
    intro p hp
    have hmem : p.1 ∈ ts0.map Prod.fst := List.mem_map_of_mem Prod.fst hp
    rw [hfst] at hmem
    obtain ⟨ch, hch, heq⟩ := List.mem_map.1 hmem
    rw [← heq]
    exact hpar ch hch
  have hnodup2 : ((mkunique ts0).map Prod.fst).Nodup := mkunique_nodup_of_parenFree hpar0
  constructor
  · rw [dfsr_dtype_of_frameTypes true hft, if_neg hd0, if_pos rfl]
  · refine ⟨mkunique ts0, ?_, hnodup2⟩
    rw [dfsr_dtype_of_frameTypes false hft, if_neg hd0, if_neg (by simp),
        if_pos hnodup2]

theorem dfsr_dtype_duplicate_modes_witness :
    dfsr_dtype ⟨[], [⟨"A", .i16, 2, 1⟩, ⟨"A", .i32, 4, 1⟩]⟩ true
      = .error .duplicateFieldName ∧
    ∃ layout, dfsr_dtype ⟨[], [⟨"A", .i16, 2, 1⟩, ⟨"A", .i32, 4, 1⟩]⟩ false
      = .ok layout ∧ (layout.map Prod.fst).Nodup :=
  dfsr_dtype_duplicate_modes _ (by decide) (by decide) (by decide)

/-- C6 counterexample: on a DFSR that has both a depth-recording-mode entry
(type 13, value 1) and a fast channel, the Orchestrator with
`skip_fast=false` fails with `UnsupportedDepthMode` — the depth guard runs
first — and not with `FastChannelsPresent` as the claim states. -/
theorem curves_fast_counterexample :
    curves ⟨[⟨13, 1⟩], [⟨"A", .i16, 2, 2⟩]⟩ true false
      = .error .unsupportedDepthMode ∧
    LisError.unsupportedDepthMode ≠ LisError.fastChannelsPresent ∧
    ∃ s ∈ (⟨[⟨13, 1⟩], [⟨"A", .i16, 2, 2⟩]⟩ : DFSR).specs, 1 < s.samples :=
  ⟨by decide, by decide, ⟨"A", .i16, 2, 2⟩, by decide, by decide⟩

/-- C6 (amended): for every DFSR with at least one multi-sample channel,
provided the depth-recording-mode guard passes (no type-13 entry of value
1): with `skip_fast=false` the Orchestrator fails with
`FastChannelsPresent`; every included channel has `samples == 1` and a
positive reserved size (multi-sample channels are excluded by the filter);
and whenever `skip_fast=true` succeeds, the resulting layout's fields
correspond one-to-one, in original order, to the included channels — under
`strict=true` bearing exactly their mnemonics. -/
theorem curves_fast_channels (dfsr : DFSR) (strict : Bool)
    (hdepth : ∀ e ∈ dfsr.entries, ¬ (e.type = 13 ∧ e.value = 1))
    (hfast : ∃ s ∈ dfsr.specs, 1 < s.samples) :
    curves dfsr strict false = .error .fastChannelsPresent ∧
    (∀ ch ∈ includedSpecs dfsr, 0 < ch.reserved_size ∧ ch.samples = 1) ∧
    ∀ inv, curves dfsr strict true = .ok inv →
      List.Forall₂
        (fun ch p => spec_dtype ch = .ok p.2 ∧ (strict = true → p.1 = ch.mnemonic))
        (includedSpecs dfsr) inv.dtype := by
  refine ⟨?_, ?_, ?_⟩
  · have h1 : ¬ dfsr.entries.any (fun x => decide (x.type = 13 ∧ x.value = 1)) = true := by
      rw [List.any_eq_true]
      rintro ⟨e, he, hcond⟩
      exact hdepth e he (by simpa using hcond)
    have h2 : (dfsr.specs.any (fun x => decide (1 < x.samples)) && !false) = true := by
      obtain ⟨s, hs, hlt⟩ := hfast
      simp only [Bool.not_false, Bool.and_true]
      rw [List.any_eq_true]
      exact ⟨s, hs, by simpa using hlt⟩
    unfold curves
    rw [if_neg h1, if_pos h2]
  · intro ch hch
    have hmem := List.mem_filter.1 hch
    simpa using hmem.2
  · intro inv hinv
    exact dfsr_dtype_ok_forall₂ (curves_ok_elim hinv).2.2.1

theorem curves_fast_channels_witness :
    curves ⟨[], [⟨"F", .i16, 4, 2⟩, ⟨"A", .i16, 2, 1⟩]⟩ true false
      = .error .fastChannelsPresent ∧
    List.Forall₂
      (fun ch p => spec_dtype ch = .ok p.2 ∧ (true = true → p.1 = ch.mnemonic))
      (includedSpecs ⟨[], [⟨"F", .i16, 4, 2⟩, ⟨"A", .i16, 2, 1⟩]⟩)
      [("A", Dtype.scalar "i2")] := by
  have h := curves_fast_channels ⟨[], [⟨"F", .i16, 4, 2⟩, ⟨"A", .i16, 2, 1⟩]⟩ true
    (by decide) ⟨⟨"F", .i16, 4, 2⟩, by decide, by decide⟩
  exact ⟨h.1, h.2.2 ⟨[("A", Dtype.scalar "i2")], 2⟩ (by decide)⟩

/-- C8: the decode engine is invoked exactly when the Orchestrator returns
`ok`, and in that case every validation has passed and the invoked layout
is fully valid: the depth guard holds, no fast channel slipped past a
`skip_fast=false` run, the Builder produced exactly the invoked layout, its
field names are pairwise unique, and the frame byte width passed along is
the layout's width. An error return carries no `DecodeInvocation`, so a
validation failure always precedes — and precludes — the decode call. -/
theorem curves_decode_only_valid (dfsr : DFSR) (strict skip_fast : Bool)
    (inv : DecodeInvocation) (h : curves dfsr strict skip_fast = .ok inv) :
    (∀ e ∈ dfsr.entries, ¬ (e.type = 13 ∧ e.value = 1)) ∧
    (skip_fast = false → ∀ s ∈ dfsr.specs, ¬ 1 < s.samples) ∧
    dfsr_dtype dfsr strict = .ok inv.dtype ∧
    (inv.dtype.map Prod.fst).Nodup ∧
    inv.itemsize = structItemsize inv.dtype := by
  obtain ⟨ha, hb, hc, hd⟩ := curves_ok_elim h
  exact ⟨ha, hb, hc, dfsr_dtype_ok_nodup hc, hd⟩

theorem curves_decode_only_valid_witness :
    (∀ e ∈ (⟨[], [⟨"A", .i16, 2, 1⟩]⟩ : DFSR).entries,
        ¬ (e.type = 13 ∧ e.value = 1)) ∧
    (false = false → ∀ s ∈ (⟨[], [⟨"A", .i16, 2, 1⟩]⟩ : DFSR).specs,
        ¬ 1 < s.samples) ∧
    dfsr_dtype ⟨[], [⟨"A", .i16, 2, 1⟩]⟩ true
      = .ok (DecodeInvocation.mk [("A", Dtype.scalar "i2")] 2).dtype ∧
    ((DecodeInvocation.mk [("A", Dtype.scalar "i2")] 2).dtype.map Prod.fst).Nodup ∧
    (DecodeInvocation.mk [("A", Dtype.scalar "i2")] 2).itemsize
      = structItemsize (DecodeInvocation.mk [("A", Dtype.scalar "i2")] 2).dtype :=
  curves_decode_only_valid ⟨[], [⟨"A", .i16, 2, 1⟩]⟩ true false
    ⟨[("A", Dtype.scalar "i2")], 2⟩ (by decide)

/-- C10 counterexample: on a DFSR with no includable channel but with a
depth-recording-mode entry (type 13, value 1), the Builder does return the
empty layout, yet the Orchestrator with `skip_fast=true` fails with
`UnsupportedDepthMode` instead of proceeding to the decode engine. -/
theorem curves_empty_layout_counterexample :
    (∀ ch ∈ (⟨[⟨13, 1⟩], []⟩ : DFSR).specs,
        ¬ (0 < ch.reserved_size ∧ ch.samples = 1)) ∧
    dfsr_dtype ⟨[⟨13, 1⟩], []⟩ true = .ok [] ∧
    curves ⟨[⟨13, 1⟩], []⟩ true true = .error .unsupportedDepthMode :=
  ⟨by decide, by decide, by decide⟩

/-- C10 (amended): for every DFSR whose channels are all excluded by the
Builder's filter (`reserved_size <= 0` or `samples != 1`), the Builder
succeeds with the empty layout of total byte width 0; and provided the
depth-recording-mode guard passes, the Orchestrator with `skip_fast=true`
proceeds to invoke the decode engine with that zero-width layout. -/
theorem dfsr_dtype_all_excluded (dfsr : DFSR) (strict : Bool)
    (hexcl : ∀ ch ∈ dfsr.specs, ¬ (0 < ch.reserved_size ∧ ch.samples = 1)) :
    dfsr_dtype dfsr strict = .ok [] ∧ structItemsize [] = 0 ∧
    ((∀ e ∈ dfsr.entries, ¬ (e.type = 13 ∧ e.value = 1)) →
      curves dfsr strict true = .ok ⟨[], 0⟩) := by
  have hincl : includedSpecs dfsr = [] := by
    unfold includedSpecs
    rw [List.filter_eq_nil_iff]
    intro ch hch
    simpa using hexcl ch hch
  have hft : frameTypes (includedSpecs dfsr) = .ok [] := by rw [hincl]; rfl
  have hdd : dfsr_dtype dfsr strict = .ok [] := by
    rw [dfsr_dtype_of_frameTypes strict hft, if_pos (by simp)]
  refine ⟨hdd, rfl, ?_⟩
  intro hdepth
  have h1 : ¬ dfsr.entries.any (fun x => decide (x.type = 13 ∧ x.value = 1)) = true := by
    rw [List.any_eq_true]
    rintro ⟨e, he, hcond⟩
    exact hdepth e he (by simpa using hcond)
  have h2 : ¬ (dfsr.specs.any (fun x => decide (1 < x.samples)) && !true) = true := by
    simp
  rw [curves_of_guards h1 h2, hdd]
  rfl

theorem dfsr_dtype_all_excluded_witness :
    dfsr_dtype ⟨[], [⟨"A", .i16, 2, 0⟩]⟩ true = .ok [] ∧
    curves ⟨[], [⟨"A", .i16, 2, 0⟩]⟩ true true = .ok ⟨[], 0⟩ := by
  have h := dfsr_dtype_all_excluded ⟨[], [⟨"A", .i16, 2, 0⟩]⟩ true (by decide)
  exact ⟨h.1, h.2.2 (by decide)⟩

example : natStr 0 = "0" := by decide
example : natStr 12 = "12" := by decide
example : mkunique [("TIME", 1), ("TIME", 2)] = [("TIME(0)", 1), ("TIME(1)", 2)] := by decide
example : mkunique [("A", 1), ("A", 2), ("A(0)", 3)]
    = [("A(0)", 1), ("A(1)", 2), ("A(0)", 3)] := by decide
example : mkunique [("A", 1), ("A", 2), ("A(0)", 3), ("A(0)", 4)]
    = [("A(0)(0)", 1), ("A(1)", 2), ("A(0)(1)", 3), ("A(0)(2)", 4)] := by decide
example : specResolveNames [("A", 1), ("A", 2), ("A(0)", 3), ("A(0)", 4)]
    = [("A(0)", 1), ("A(1)", 2), ("A(0)(0)", 3), ("A(0)(1)", 4)] := by decide
example : spec_dtype ⟨"A", .f32, 8, 1⟩ = .ok (.subarray "f4" 2) := by decide
example : spec_dtype ⟨"A", .i16, 3, 1⟩ = .error .invalidLayout := by decide
example : spec_dtype ⟨"A", .string, 7, 1⟩ = .ok (.scalar "O") := by decide
example : spec_dtype ⟨"A", .mask, 4, 1⟩ = .error .unsupportedCode := by decide
example : dfsr_dtype ⟨[], [⟨"A", .i16, 2, 1⟩, ⟨"A", .i32, 4, 1⟩]⟩ false
    = .ok [("A(0)", .scalar "i2"), ("A(1)", .scalar "i4")] := by decide
example : dfsr_dtype ⟨[], [⟨"A", .i16, 2, 1⟩, ⟨"A", .i32, 4, 1⟩]⟩ true
    = .error .duplicateFieldName := by decide
example : dfsr_dtype ⟨[], [⟨"A", .i16, 2, 1⟩, ⟨"A", .i16, 2, 1⟩, ⟨"A(0)", .i16, 2, 1⟩]⟩ false
    = .error .duplicateFieldName := by decide
example : curves ⟨[⟨13, 1⟩], [⟨"A", .i16, 2, 2⟩]⟩ true false
    = .error .unsupportedDepthMode := by decide
example : curves ⟨[], [⟨"A", .i16, 2, 2⟩]⟩ true false
    = .error .fastChannelsPresent := by decide
example : curves ⟨[], [⟨"A", .i16, 2, 1⟩]⟩ true true
    = .ok ⟨[("A", .scalar "i2")], 2⟩ := by decide
example : curves ⟨[], []⟩ true true = .ok ⟨[], 0⟩ := by decide
